import Mathlib

/-!
Shallow embedding of `src/scraper.py` (the bear-map feed scraper).

The pipeline loads a persisted JSON store, iterates over the entries of an
RSS feed, skips entries whose `link` is already stored, normalizes the
publish timestamp, filters titles by the keywords "熊" / "クマ", extracts a
place name via the Gemini capability, geocodes it via the Nominatim
capability, and appends the resolved records, re-sorting by `date`
descending before writing the file back.

External capabilities (the Gemini call, the Nominatim geocoder, and the
`hashlib.md5` hex digest) are modelled as function-valued fields of `Caps`;
coordinates flow through the pipeline opaquely and are modelled as integers.
The persisted file is modelled as `Option (List SightingRecord)` (`none` =
file absent); JSON serialization is injective on that data, so list equality
stands for byte-for-byte equality of the file.

A run additionally returns a trace of the externally observable events
(resolver invocations, geocoder invocations with their outcome, and the
`time.sleep(1)` pause), which the temporal claims are stated over.
-/

/-- Code-point lexicographic comparison of character lists.  This mirrors
the Python string comparison, which `save_data` relies on to sort the `date`
strings (`list.sort(key=..., reverse=True)`). -/
def charListLe : List Char → List Char → Bool
  | [], _ => true
  | _ :: _, [] => false
  | a :: as, b :: bs => if a = b then charListLe as bs else decide (a < b)

/-- Python string `<=`, lexicographic by code point. -/
def strLe (a b : String) : Bool := charListLe a.data b.data

/-- Test that the first list starts the second one. -/
def listPrefixed : List Char → List Char → Bool
  | [], _ => true
  | _ :: _, [] => false
  | a :: as, b :: bs => a = b && listPrefixed as bs

/-- Auxiliary scan for the substring test. -/
def listInfixed (n : List Char) : List Char → Bool
  | [] => n.isEmpty
  | c :: rest => listPrefixed n (c :: rest) || listInfixed n rest

/-- The Python substring test `needle in hay` on strings. -/
def containsSub (needle hay : String) : Bool := listInfixed needle.data hay.data

/-- The whitespace set stripped by the Python `str.strip()` (ASCII part;
the titles and capability responses modelled here contain no exotic
unicode whitespace). -/
def pyWhitespace (c : Char) : Bool :=
  c = ' ' || c = '\t' || c = '\n' || c = '\r' || c = '\x0b' || c = '\x0c'

/-- Model of the Python `str.strip()`: drop leading and trailing whitespace. -/
def pyStrip (s : String) : String :=
  String.mk (((s.data.dropWhile pyWhitespace).reverse.dropWhile pyWhitespace).reverse)

/-- Model of the Python `str.replace(c, "")` for a single-character pattern,
which is exactly what `ask_gemini_for_location` uses (`.replace("\n", "")`
and `.replace("。", "")`): removal of every occurrence of that character. -/
def removeChar (c : Char) (s : String) : String :=
  String.mk (s.data.filter (fun a => a != c))

/-- The keyword filter of `update_feed` (line 99):
`"熊" not in title and "クマ" not in title` drops the entry. -/
def hasKeyword (title : String) : Bool :=
  containsSub "熊" title || containsSub "クマ" title

/-- A latitude/longitude pair as returned by the geocoding capability.
The pipeline never computes with coordinates, so they are opaque values. -/
structure Coords where
  lat : Int
  lng : Int
deriving DecidableEq

/-- One persisted sighting record (the `new_item` dict of `update_feed` /
one element of `bear_data.json`).  `lat`/`lng` are optional because a JSON
field may in principle hold `null`; the claims establish that the pipeline
only ever stores present values. -/
structure SightingRecord where
  id : String
  title : String
  location : String
  lat : Option Int
  lng : Option Int
  date : String
  link : String
  source : String
deriving DecidableEq

/-- Result of the Gemini text-understanding capability
(`model.generate_content(prompt).text`): either a response text or a raised
exception (quota, network, missing response text). -/
inductive CapResult
  | ok (text : String)
  | error
deriving DecidableEq

/-- Result of the Nominatim geocoding capability (`geolocator.geocode`):
a best match, no match (`None`), or a raised exception (timeout included). -/
inductive GeoResult
  | found (c : Coords)
  | notFound
  | error
deriving DecidableEq

/-- The external capabilities and module-level configuration of the script:
the `GEMINI_API_KEY` environment value, the Gemini call (as a function of
the title embedded in the fixed prompt), the geocoder (as a function of the
full query string), and `hashlib.md5(...).hexdigest()`. -/
structure Caps where
  geminiKey : Option String
  gemini : String → CapResult
  geocode : String → GeoResult
  md5hex : String → String

/-- Model of `ask_gemini_for_location` (lines 36-64): returns `None`
without calling the capability when the key is absent; on a response,
strips it, treats a response containing `"None"` (or an empty response) as
no location, and otherwise returns the response with `"\n"` and `"。"`
removed; any raised exception is caught and mapped to `None`. -/
def ask_gemini_for_location (key : Option String) (gemini : String → CapResult)
    (title : String) : Option String :=
  match key with
  | none => none
  | some _ =>
    match gemini title with
    | .error => none
    | .ok text =>
      let location_text := pyStrip text
      if containsSub "None" location_text || location_text = "" then none
      else some (removeChar '。' (removeChar '\n' location_text))

/-- Model of `get_coordinates_from_address` (lines 66-78): queries the
geocoder with the address followed by ", Japan"; a match yields its
coordinates, no match or any exception (timeout included) yields `None`. -/
def get_coordinates_from_address (geocode : String → GeoResult)
    (address : String) : Option Coords :=
  match geocode (address ++ ", Japan") with
  | .found c => some c
  | .notFound => none
  | .error => none

/-- The `time.struct_time` prefix used by `update_feed`
(`published_parsed[:6]`). -/
structure PTime where
  year : Nat
  month : Nat
  day : Nat
  hour : Nat
  minute : Nat
  second : Nat
deriving DecidableEq

/-- Two-digit zero padding, as `strftime` produces for `%m %d %H %M %S`. -/
def pad2 (n : Nat) : String := if n < 10 then "0" ++ toString n else toString n

/-- Model of `datetime.datetime(*published[:6]).strftime("%Y-%m-%d %H:%M:%S")`. -/
def formatDate (t : PTime) : String :=
  toString t.year ++ "-" ++ pad2 t.month ++ "-" ++ pad2 t.day ++ " " ++
    pad2 t.hour ++ ":" ++ pad2 t.minute ++ ":" ++ pad2 t.second

/-- One raw feed entry as exposed by `feedparser`: title, link, the
structured publish time (`published_parsed`, absent ⇒ `None` ⇒ the
`datetime.datetime(*None[:6])` call raises), and the optional source name. -/
structure FeedEntry where
  title : String
  link : String
  published : Option PTime
  source : Option String

/-- Externally observable events of one run, in order: an invocation of the
location extractor (`ask_gemini_for_location`, line 105), an invocation of
the geocoder (`get_coordinates_from_address`, line 114, with whether it
found coordinates), and the `time.sleep(1)` pause (line 136). -/
inductive Event
  | extractCall (title : String)
  | geocodeCall (address : String) (found : Bool)
  | sleep
deriving DecidableEq

/-- Outcome of the loop body for one entry: skipped (`continue`), a record
appended to `new_entries`, or an uncaught exception (`abort`). -/
inductive StepResult
  | skip
  | add (r : SightingRecord)
  | abort
deriving DecidableEq

/-- The part of the loop body after the duplicate check (lines 94-136):
timestamp normalization (raises when `published_parsed` is absent), keyword
filter, extraction, geocoding, record construction.  The sleep happens only
on the successful-add path, after the record is appended. -/
def processEntryCore (caps : Caps) (e : FeedEntry) : StepResult × List Event :=
  match e.published with
  | none => (.abort, [])
  | some published =>
    let pub_date := formatDate published
    if hasKeyword e.title then
      match ask_gemini_for_location caps.geminiKey caps.gemini e.title with
      | none => (.skip, [.extractCall e.title])
      | some extracted_location =>
        match get_coordinates_from_address caps.geocode extracted_location with
        | none => (.skip, [.extractCall e.title,
                           .geocodeCall extracted_location false])
        | some coords =>
          (.add { id := caps.md5hex e.link
                  title := e.title
                  location := extracted_location
                  lat := some coords.lat
                  lng := some coords.lng
                  date := pub_date
                  link := e.link
                  source := e.source.getD "Google News" },
           [.extractCall e.title, .geocodeCall extracted_location true,
            .sleep])
    else (.skip, [])

/-- The full loop body (lines 89-136): the duplicate check against
`existing_links` (line 91) runs first; note that `existing_links` is the
set computed once before the loop and is never extended inside the loop. -/
def processEntry (caps : Caps) (existing_links : List String)
    (e : FeedEntry) : StepResult × List Event :=
  if e.link ∈ existing_links then (.skip, [])
  else processEntryCore caps e

/-- Outcome of iterating the loop over the whole feed: the accumulated
`new_entries` and the event trace, or a raised exception (with the events
that happened before it). -/
inductive RunOutcome
  | ok (new_entries : List SightingRecord) (trace : List Event)
  | raised (trace : List Event)

/-- The `for entry in feed.entries` loop of `update_feed`, with the fixed
`existing_links` computed before the loop. -/
def runEntries (caps : Caps) (existing_links : List String) :
    List FeedEntry → RunOutcome
  | [] => .ok [] []
  | e :: rest =>
    match processEntry caps existing_links e with
    | (.abort, ev) => .raised ev
    | (.skip, ev) =>
      match runEntries caps existing_links rest with
      | .ok ns tr => .ok ns (ev ++ tr)
      | .raised tr => .raised (ev ++ tr)
    | (.add r, ev) =>
      match runEntries caps existing_links rest with
      | .ok ns tr => .ok (r :: ns) (ev ++ tr)
      | .raised tr => .raised (ev ++ tr)

/-- The event trace of a run outcome. -/
def traceOf : RunOutcome → List Event
  | .ok _ tr => tr
  | .raised tr => tr

/-- Model of `load_data` (lines 24-28): a missing file is the empty store. -/
def load_data (file : Option (List SightingRecord)) : List SightingRecord :=
  file.getD []

/-- The sort relation of `save_data`: record `a` precedes record `b` when
`a.date` is lexicographically ≥ `b.date` (Python `reverse=True`). -/
def dateGe (a b : SightingRecord) : Prop := strLe b.date a.date = true

instance decDateGe : DecidableRel dateGe :=
  fun a b => inferInstanceAs (Decidable (strLe b.date a.date = true))

/-- Model of `save_data` (lines 30-34): re-sorts the whole data set by
`date` descending and rewrites the file with it. -/
def save_data (data : List SightingRecord) : List SightingRecord :=
  data.insertionSort dateGe

/-- The observable outcome of one `update_feed` run: the file state after
the run, whether the file was written, whether the run raised, the records
accumulated in `new_entries`, and the event trace. -/
structure RunResult where
  file : Option (List SightingRecord)
  wrote : Bool
  raised : Bool
  new_entries : List SightingRecord
  trace : List Event

/-- Model of `update_feed` (lines 80-143): load the store, build `existing_links`,
iterate over the feed entries, and write the extended, re-sorted store back
only when at least one new record was accumulated (`if new_entries:`).
An uncaught exception leaves the file untouched. -/
def update_feed (caps : Caps) (file : Option (List SightingRecord))
    (entries : List FeedEntry) : RunResult :=
  let current_data := load_data file
  let existing_links := current_data.map SightingRecord.link
  match runEntries caps existing_links entries with
  | .raised tr =>
    { file := file, wrote := false, raised := true, new_entries := [],
      trace := tr }
  | .ok ns tr =>
    if ns.isEmpty then
      { file := file, wrote := false, raised := false, new_entries := ns,
        trace := tr }
    else
      { file := some (save_data (current_data ++ ns)), wrote := true,
        raised := false, new_entries := ns, trace := tr }

/-- Scan deciding "between any two geocoder invocations there is at least
one sleep": the flag records that a geocoder call has happened with no
sleep since. -/
def pausedAux : Bool → List Event → Bool
  | _, [] => true
  | pending, .geocodeCall _ _ :: rest =>
    if pending then false else pausedAux true rest
  | _, .sleep :: rest => pausedAux false rest
  | pending, .extractCall _ :: rest => pausedAux pending rest

/-- A trace satisfies the claimed rate policy when every two successive
geocoder invocations have a sleep between them. -/
def pausedBetweenGeocodes (tr : List Event) : Bool := pausedAux false tr

/-- A trace satisfies the policy the code actually implements when every
geocoder invocation that found coordinates is immediately followed by a
sleep. -/
def sleepAfterSuccess : List Event → Bool
  | [] => true
  | .geocodeCall _ true :: .sleep :: rest => sleepAfterSuccess rest
  | .geocodeCall _ true :: _ => false
  | _ :: rest => sleepAfterSuccess rest

/-- Concrete publish time used by the witness runs. -/
def pt1 : PTime := ⟨2024, 5, 6, 7, 8, 9⟩

/-- Capabilities for which every candidate resolves: the extractor echoes
the title and the geocoder always finds a fixed coordinate. -/
def capsOkay : Caps :=
  { geminiKey := some "k"
    gemini := fun t => .ok t
    geocode := fun _ => .found ⟨43, 141⟩
    md5hex := fun s => "h" ++ s }

/-- A feed entry that resolves under `capsOkay`. -/
def entA : FeedEntry := ⟨"熊 A", "LA", some pt1, none⟩

/-- A second entry sharing the link of `entA`, as one feed pull may contain. -/
def entB : FeedEntry := ⟨"熊 B", "LA", some pt1, none⟩

/-- A well-formed pre-existing store record. -/
def recX : SightingRecord :=
  ⟨"id0", "熊 X", "loc", some 1, some 2, "2024-01-01 00:00:00", "LX", "src"⟩

/-- Capabilities whose geocoder finds nothing for the query built from the
title "熊1" and a fixed coordinate for every other query. -/
def capsMiss1 : Caps :=
  { geminiKey := some "k"
    gemini := fun t => .ok t
    geocode := fun a => if a = "熊1, Japan" then .notFound else .found ⟨1, 2⟩
    md5hex := fun s => "h" ++ s }

/-- Two candidates: the geocoding call for the first finds no match, the
one for the second succeeds. -/
def feedMiss1 : List FeedEntry :=
  [⟨"熊1", "L1", some pt1, none⟩, ⟨"熊2", "L2", some pt1, none⟩]

/-- Capabilities whose extraction call raises on every title. -/
def capsGemErr : Caps :=
  { geminiKey := some "k"
    gemini := fun _ => .error
    geocode := fun _ => .found ⟨1, 2⟩
    md5hex := fun s => "h" ++ s }

/-- Like `capsGemErr`, but the extraction error on the title of `entA` is
replaced by a clean "None" (miss) response. -/
def capsGemMiss : Caps :=
  { capsGemErr with
    gemini := fun t => if t = "熊 A" then .ok "None" else capsGemErr.gemini t }

/-- Capabilities whose geocoder raises (e.g. times out) on every query. -/
def capsGeoErr : Caps :=
  { geminiKey := some "k"
    gemini := fun t => .ok t
    geocode := fun _ => .error
    md5hex := fun s => "h" ++ s }

/-- Like `capsGeoErr`, but the geocoder error on the query built from
`entA` is replaced by a clean no-match response. -/
def capsGeoMiss : Caps :=
  { capsGeoErr with
    geocode := fun a => if a = "熊 A, Japan" then .notFound
                        else capsGeoErr.geocode a }

/-- Capabilities whose extractor answers the literal "None" sentinel on
every title. -/
def capsNone : Caps :=
  { geminiKey := some "k"
    gemini := fun _ => .ok "None"
    geocode := fun _ => .found ⟨1, 2⟩
    md5hex := fun s => "h" ++ s }

/-- A feed entry with no structured publish time and a keyword-free title. -/
def entNoDate : FeedEntry := ⟨"no bear item", "LN", none, none⟩

/-- A keyword-free feed entry with a publish time. -/
def entNoKw : FeedEntry := ⟨"just weather", "LW", some pt1, none⟩

/-! ## Order properties of the date comparison -/

theorem charListLe_total : ∀ x y : List Char,
    charListLe x y = true ∨ charListLe y x = true := by
  intro x
  induction x with
  | nil => intro y; left; rfl
  | cons a as ih =>
    intro y
    cases y with
    | nil => right; rfl
    | cons b bs =>
      by_cases hab : a = b
      · subst hab
        rcases ih bs with h | h
        · left; simpa [charListLe] using h
        · right; simpa [charListLe] using h
      · rcases lt_or_gt_of_ne hab with h | h
        · left; simp [charListLe, hab, h]
        · right; simp [charListLe, Ne.symm hab, h]

theorem charListLe_trans : ∀ x y z : List Char,
    charListLe x y = true → charListLe y z = true → charListLe x z = true := by
  intro x
  induction x with
  | nil => intro y z _ _; rfl
  | cons a as ih =>
    intro y z hxy hyz
    cases y with
    | nil => simp [charListLe] at hxy
    | cons b bs =>
      cases z with
      | nil => simp [charListLe] at hyz
      | cons c cs =>
        simp only [charListLe] at hxy hyz ⊢
        by_cases hab : a = b
        · subst hab
          by_cases hac : a = c
          · subst hac
            rw [if_pos rfl] at hxy hyz ⊢
            exact ih bs cs hxy hyz
          · rw [if_neg hac] at hyz ⊢
            exact hyz
        · by_cases hbc : b = c
          · subst hbc
            rw [if_neg hab] at hxy ⊢
            exact hxy
          · rw [if_neg hab] at hxy
            rw [if_neg hbc] at hyz
            have hac : a < c :=
              lt_trans (of_decide_eq_true hxy) (of_decide_eq_true hyz)
            rw [if_neg (ne_of_lt hac)]
            exact decide_eq_true hac

theorem dateGe_total : ∀ a b : SightingRecord, dateGe a b ∨ dateGe b a :=
  fun a b => charListLe_total b.date.data a.date.data

theorem dateGe_trans : ∀ a b c : SightingRecord,
    dateGe a b → dateGe b c → dateGe a c :=
  fun _ _ _ h1 h2 => charListLe_trans _ _ _ h2 h1

/-! ## Equations for the delay predicates -/

theorem sas_nil : sleepAfterSuccess [] = true := rfl

theorem sas_extract (t : String) (tr : List Event) :
    sleepAfterSuccess (.extractCall t :: tr) = sleepAfterSuccess tr := rfl

theorem sas_sleep (tr : List Event) :
    sleepAfterSuccess (.sleep :: tr) = sleepAfterSuccess tr := rfl

theorem sas_geo_false (a : String) (tr : List Event) :
    sleepAfterSuccess (.geocodeCall a false :: tr) = sleepAfterSuccess tr := rfl

theorem sas_geo_true_sleep (a : String) (tr : List Event) :
    sleepAfterSuccess (.geocodeCall a true :: .sleep :: tr) =
      sleepAfterSuccess tr := rfl

/-! ## Case analysis of the loop body -/

theorem processEntryCore_cases (caps : Caps) (e : FeedEntry) :
    (e.published = none ∧ processEntryCore caps e = (.abort, [])) ∨
    (∃ p, e.published = some p ∧ hasKeyword e.title = false ∧
      processEntryCore caps e = (.skip, [])) ∨
    (∃ p, e.published = some p ∧ hasKeyword e.title = true ∧
      ask_gemini_for_location caps.geminiKey caps.gemini e.title = none ∧
      processEntryCore caps e = (.skip, [.extractCall e.title])) ∨
    (∃ p loc, e.published = some p ∧ hasKeyword e.title = true ∧
      ask_gemini_for_location caps.geminiKey caps.gemini e.title = some loc ∧
      get_coordinates_from_address caps.geocode loc = none ∧
      processEntryCore caps e =
        (.skip, [.extractCall e.title, .geocodeCall loc false])) ∨
    (∃ p loc c, e.published = some p ∧ hasKeyword e.title = true ∧
      ask_gemini_for_location caps.geminiKey caps.gemini e.title = some loc ∧
      get_coordinates_from_address caps.geocode loc = some c ∧
      processEntryCore caps e =
        (.add { id := caps.md5hex e.link, title := e.title, location := loc,
                lat := some c.lat, lng := some c.lng, date := formatDate p,
                link := e.link, source := e.source.getD "Google News" },
         [.extractCall e.title, .geocodeCall loc true, .sleep])) := by
  cases hpub : e.published with
  | none => exact Or.inl ⟨rfl, by simp [processEntryCore, hpub]⟩
  | some p =>
    by_cases hk : hasKeyword e.title = true
    · cases hag : ask_gemini_for_location caps.geminiKey caps.gemini e.title with
      | none =>
        exact Or.inr (Or.inr (Or.inl
          ⟨p, rfl, hk, rfl, by simp [processEntryCore, hpub, hk, hag]⟩))
      | some loc =>
        cases hco : get_coordinates_from_address caps.geocode loc with
        | none =>
          exact Or.inr (Or.inr (Or.inr (Or.inl
            ⟨p, loc, rfl, hk, rfl, hco,
             by simp [processEntryCore, hpub, hk, hag, hco]⟩)))
        | some c =>
          exact Or.inr (Or.inr (Or.inr (Or.inr
            ⟨p, loc, c, rfl, hk, rfl, hco,
             by simp [processEntryCore, hpub, hk, hag, hco]⟩)))
    · refine Or.inr (Or.inl ⟨p, rfl, ?_, by simp [processEntryCore, hpub, hk]⟩)
      simpa using hk

theorem processEntry_of_mem (caps : Caps) (L : List String) (e : FeedEntry)
    (h : e.link ∈ L) : processEntry caps L e = (.skip, []) := by
  simp [processEntry, h]

theorem processEntry_of_not_mem (caps : Caps) (L : List String) (e : FeedEntry)
    (h : e.link ∉ L) : processEntry caps L e = processEntryCore caps e := by
  simp [processEntry, h]

theorem processEntry_add_spec (caps : Caps) (L : List String) (e : FeedEntry)
    (r : SightingRecord) (ev : List Event)
    (h : processEntry caps L e = (.add r, ev)) :
    e.link ∉ L ∧ r.link = e.link ∧ r.title = e.title ∧
    r.lat.isSome = true ∧ r.lng.isSome = true ∧ hasKeyword e.title = true ∧
    r.id = caps.md5hex e.link := by
  by_cases hmem : e.link ∈ L
  · rw [processEntry_of_mem caps L e hmem] at h
    exact absurd h (by simp)
  · rw [processEntry_of_not_mem caps L e hmem] at h
    refine ⟨hmem, ?_⟩
    rcases processEntryCore_cases caps e with
      ⟨_, hc⟩ | ⟨p, _, _, hc⟩ | ⟨p, _, _, _, hc⟩ |
      ⟨p, loc, _, _, _, _, hc⟩ | ⟨p, loc, c, _, hk, _, _, hc⟩ <;>
      rw [hc] at h
    · exact absurd h (by simp)
    · exact absurd h (by simp)
    · exact absurd h (by simp)
    · exact absurd h (by simp)
    · rw [Prod.mk.injEq, StepResult.add.injEq] at h
      rw [← h.1]
      exact ⟨rfl, rfl, rfl, rfl, hk, rfl⟩

/-! ## Lemmas about the loop over the feed -/

theorem traceOf_cons (caps : Caps) (L : List String) (e : FeedEntry)
    (rest : List FeedEntry) :
    traceOf (runEntries caps L (e :: rest)) =
      (processEntry caps L e).2 ++
        (if (processEntry caps L e).1 = .abort then []
         else traceOf (runEntries caps L rest)) := by
  rcases hpe : processEntry caps L e with ⟨s, ev⟩
  cases s with
  | abort => simp [runEntries, hpe, traceOf]
  | skip =>
    cases hrec : runEntries caps L rest with
    | ok ns tr => simp [runEntries, hpe, hrec, traceOf]
    | raised tr => simp [runEntries, hpe, hrec, traceOf]
  | add r =>
    cases hrec : runEntries caps L rest with
    | ok ns tr => simp [runEntries, hpe, hrec, traceOf]
    | raised tr => simp [runEntries, hpe, hrec, traceOf]

theorem runEntries_ok_spec (caps : Caps) (L : List String) :
    ∀ es ns tr, runEntries caps L es = .ok ns tr → ∀ r ∈ ns,
      r.link ∉ L ∧ r.link ∈ es.map FeedEntry.link ∧ r.lat.isSome = true ∧
      r.lng.isSome = true ∧ hasKeyword r.title = true := by
  intro es
  induction es with
  | nil =>
    intro ns tr h r hr
    simp only [runEntries] at h
    injection h with h1 _
    subst h1
    simp at hr
  | cons e rest ih =>
    intro ns tr h r hr
    rcases hpe : processEntry caps L e with ⟨s, ev⟩
    cases s with
    | abort =>
      simp only [runEntries, hpe] at h
      exact RunOutcome.noConfusion h
    | skip =>
      simp only [runEntries, hpe] at h
      cases hrec : runEntries caps L rest with
      | raised tr' => rw [hrec] at h; exact RunOutcome.noConfusion h
      | ok ns' tr' =>
        rw [hrec] at h
        injection h with h1 _
        subst h1
        obtain ⟨hnl, hml, hla, hlg, hkw⟩ := ih _ _ hrec r hr
        exact ⟨hnl, by simp [hml], hla, hlg, hkw⟩
    | add r' =>
      simp only [runEntries, hpe] at h
      cases hrec : runEntries caps L rest with
      | raised tr' => rw [hrec] at h; exact RunOutcome.noConfusion h
      | ok ns' tr' =>
        rw [hrec] at h
        injection h with h1 _
        subst h1
        rcases List.mem_cons.mp hr with hre | hre
        · subst hre
          obtain ⟨hnm, hl, ht, hla, hlg, hkw, _⟩ :=
            processEntry_add_spec caps L e r ev hpe
          exact ⟨by rw [hl]; exact hnm, by simp [hl], hla, hlg,
                 by rw [ht]; exact hkw⟩
        · obtain ⟨hnl, hml, hla, hlg, hkw⟩ := ih _ _ hrec r hre
          exact ⟨hnl, by simp [hml], hla, hlg, hkw⟩

theorem runEntries_ok_nodup (caps : Caps) (L : List String) :
    ∀ es ns tr, runEntries caps L es = .ok ns tr →
      (es.map FeedEntry.link).Nodup → (ns.map SightingRecord.link).Nodup := by
  intro es
  induction es with
  | nil =>
    intro ns tr h _
    simp only [runEntries] at h
    injection h with h1 _
    subst h1
    simp
  | cons e rest ih =>
    intro ns tr h hnd
    rw [List.map_cons, List.nodup_cons] at hnd
    rcases hpe : processEntry caps L e with ⟨s, ev⟩
    cases s with
    | abort =>
      simp only [runEntries, hpe] at h
      exact RunOutcome.noConfusion h
    | skip =>
      simp only [runEntries, hpe] at h
      cases hrec : runEntries caps L rest with
      | raised tr' => rw [hrec] at h; exact RunOutcome.noConfusion h
      | ok ns' tr' =>
        rw [hrec] at h
        injection h with h1 _
        subst h1
        exact ih _ _ hrec hnd.2
    | add r' =>
      simp only [runEntries, hpe] at h
      cases hrec : runEntries caps L rest with
      | raised tr' => rw [hrec] at h; exact RunOutcome.noConfusion h
      | ok ns' tr' =>
        rw [hrec] at h
        injection h with h1 _
        subst h1
        rw [List.map_cons, List.nodup_cons]
        refine ⟨?_, ih _ _ hrec hnd.2⟩
        intro hmem
        rcases List.mem_map.mp hmem with ⟨r2, hr2, hlink⟩
        have hspec := runEntries_ok_spec caps L rest ns' tr' hrec r2 hr2
        have hl : r'.link = e.link :=
          (processEntry_add_spec caps L e r' ev hpe).2.1
        apply hnd.1
        rw [← hl, ← hlink]
        exact hspec.2.1

theorem processEntry_skip_core (caps : Caps) (L : List String) (e : FeedEntry)
    (ev : List Event) (hcore : processEntryCore caps e = (.skip, ev)) :
    ∃ ev2, processEntry caps L e = (.skip, ev2) := by
  by_cases hmem : e.link ∈ L
  · exact ⟨[], processEntry_of_mem caps L e hmem⟩
  · exact ⟨ev, by rw [processEntry_of_not_mem caps L e hmem]; exact hcore⟩

theorem runEntries_rerun (caps : Caps) (L1 L2 : List String)
    (hsub : ∀ x, x ∈ L1 → x ∈ L2) :
    ∀ es ns tr, runEntries caps L1 es = .ok ns tr →
      (∀ r ∈ ns, r.link ∈ L2) →
      ∃ tr2, runEntries caps L2 es = .ok [] tr2 := by
  intro es
  induction es with
  | nil => intro ns tr _ _; exact ⟨[], rfl⟩
  | cons e rest ih =>
    intro ns tr h hns
    rcases hpe : processEntry caps L1 e with ⟨s, ev⟩
    cases s with
    | abort =>
      simp only [runEntries, hpe] at h
      exact RunOutcome.noConfusion h
    | skip =>
      simp only [runEntries, hpe] at h
      cases hrec : runEntries caps L1 rest with
      | raised tr' => rw [hrec] at h; exact RunOutcome.noConfusion h
      | ok ns' tr' =>
        rw [hrec] at h
        injection h with h1 _
        subst h1
        have hskip2 : ∃ ev2, processEntry caps L2 e = (.skip, ev2) := by
          by_cases hmem : e.link ∈ L1
          · exact ⟨[], processEntry_of_mem caps L2 e (hsub _ hmem)⟩
          · rw [processEntry_of_not_mem caps L1 e hmem] at hpe
            exact processEntry_skip_core caps L2 e ev hpe
        obtain ⟨ev2, hpe2⟩ := hskip2
        obtain ⟨tr2, hrec2⟩ := ih _ _ hrec hns
        exact ⟨ev2 ++ tr2, by simp [runEntries, hpe2, hrec2]⟩
    | add r' =>
      simp only [runEntries, hpe] at h
      cases hrec : runEntries caps L1 rest with
      | raised tr' => rw [hrec] at h; exact RunOutcome.noConfusion h
      | ok ns' tr' =>
        rw [hrec] at h
        injection h with h1 _
        subst h1
        have hl : r'.link = e.link :=
          (processEntry_add_spec caps L1 e r' ev hpe).2.1
        have hlink2 : e.link ∈ L2 := by
          rw [← hl]
          exact hns r' (List.mem_cons_self r' ns')
        have hpe2 := processEntry_of_mem caps L2 e hlink2
        obtain ⟨tr2, hrec2⟩ :=
          ih _ _ hrec (fun r hr => hns r (List.mem_cons_of_mem r' hr))
        exact ⟨tr2, by simp [runEntries, hpe2, hrec2]⟩

/-! ## Trace properties -/

theorem processEntry_extract_kw (caps : Caps) (L : List String) (e : FeedEntry)
    (t : String) (h : Event.extractCall t ∈ (processEntry caps L e).2) :
    hasKeyword t = true := by
  by_cases hmem : e.link ∈ L
  · rw [processEntry_of_mem caps L e hmem] at h
    simp at h
  · rw [processEntry_of_not_mem caps L e hmem] at h
    rcases processEntryCore_cases caps e with
      ⟨_, hc⟩ | ⟨p, _, _, hc⟩ | ⟨p, _, hk, _, hc⟩ |
      ⟨p, loc, _, hk, _, _, hc⟩ | ⟨p, loc, c, _, hk, _, _, hc⟩ <;>
      rw [hc] at h <;> simp at h
    · rw [h]; exact hk
    · rw [h]; exact hk
    · rw [h]; exact hk

theorem runEntries_extract_kw (caps : Caps) (L : List String) :
    ∀ es t, Event.extractCall t ∈ traceOf (runEntries caps L es) →
      hasKeyword t = true := by
  intro es
  induction es with
  | nil => intro t h; simp [runEntries, traceOf] at h
  | cons e rest ih =>
    intro t h
    rw [traceOf_cons] at h
    rcases List.mem_append.mp h with h1 | h1
    · exact processEntry_extract_kw caps L e t h1
    · by_cases ha : (processEntry caps L e).1 = .abort
      · rw [if_pos ha] at h1; simp at h1
      · rw [if_neg ha] at h1; exact ih t h1

theorem processEntry_trace_sas (caps : Caps) (L : List String) (e : FeedEntry)
    (tr : List Event) :
    sleepAfterSuccess ((processEntry caps L e).2 ++ tr) =
      sleepAfterSuccess tr := by
  by_cases hmem : e.link ∈ L
  · rw [processEntry_of_mem caps L e hmem]; rfl
  · rw [processEntry_of_not_mem caps L e hmem]
    rcases processEntryCore_cases caps e with
      ⟨_, hc⟩ | ⟨_, _, _, hc⟩ | ⟨_, _, _, _, hc⟩ |
      ⟨_, _, _, _, _, _, hc⟩ | ⟨_, _, _, _, _, _, _, hc⟩ <;> rw [hc] <;>
      simp [sas_extract, sas_geo_false, sas_geo_true_sleep, sas_sleep]

theorem runEntries_sas (caps : Caps) (L : List String) :
    ∀ es, sleepAfterSuccess (traceOf (runEntries caps L es)) = true := by
  intro es
  induction es with
  | nil => rfl
  | cons e rest ih =>
    rw [traceOf_cons]
    by_cases ha : (processEntry caps L e).1 = .abort
    · rw [if_pos ha, processEntry_trace_sas]; rfl
    · rw [if_neg ha, processEntry_trace_sas]; exact ih

/-! ## Congruence in the capabilities -/

theorem ask_gemini_congr (k : Option String) (g g' : String → CapResult)
    (t : String) (h : g t = g' t) :
    ask_gemini_for_location k g t = ask_gemini_for_location k g' t := by
  unfold ask_gemini_for_location
  cases k with
  | none => rfl
  | some s => rw [h]

theorem ask_gemini_of_error (k : Option String) (g : String → CapResult)
    (t : String) (h : g t = .error) :
    ask_gemini_for_location k g t = none := by
  unfold ask_gemini_for_location
  cases k with
  | none => rfl
  | some s => rw [h]

theorem ask_gemini_of_none_resp (k : Option String) (g : String → CapResult)
    (t : String) (h : g t = .ok "None") :
    ask_gemini_for_location k g t = none := by
  unfold ask_gemini_for_location
  cases k with
  | none => rfl
  | some s => rw [h]; rfl

theorem get_coordinates_congr (g g' : String → GeoResult) (a : String)
    (h : g (a ++ ", Japan") = g' (a ++ ", Japan")) :
    get_coordinates_from_address g a = get_coordinates_from_address g' a := by
  unfold get_coordinates_from_address
  rw [h]

theorem processEntryCore_congr (c c' : Caps)
    (hg : ∀ t, ask_gemini_for_location c'.geminiKey c'.gemini t =
               ask_gemini_for_location c.geminiKey c.gemini t)
    (hgeo : ∀ a, get_coordinates_from_address c'.geocode a =
                 get_coordinates_from_address c.geocode a)
    (hm : c'.md5hex = c.md5hex) (e : FeedEntry) :
    processEntryCore c' e = processEntryCore c e := by
  unfold processEntryCore
  cases e.published with
  | none => rfl
  | some p =>
    by_cases hk : hasKeyword e.title = true
    · simp only [hk, if_true]
      rw [hg]
      cases ask_gemini_for_location c.geminiKey c.gemini e.title with
      | none => rfl
      | some loc => simp only [hgeo, hm]
    · simp [hk]

theorem runEntries_congr (c c' : Caps) (L : List String)
    (hcong : ∀ e, processEntryCore c' e = processEntryCore c e) :
    ∀ es, runEntries c' L es = runEntries c L es := by
  intro es
  induction es with
  | nil => rfl
  | cons e rest ih =>
    have hpe : processEntry c' L e = processEntry c L e := by
      unfold processEntry
      rw [hcong]
    simp only [runEntries, hpe, ih]

theorem update_feed_congr (c c' : Caps) (file : Option (List SightingRecord))
    (feed : List FeedEntry)
    (hcong : ∀ e, processEntryCore c' e = processEntryCore c e) :
    update_feed c' file feed = update_feed c file feed := by
  simp only [update_feed]
  rw [runEntries_congr c c' ((load_data file).map SightingRecord.link)
        hcong feed]

theorem update_feed_trace (caps : Caps) (file : Option (List SightingRecord))
    (feed : List FeedEntry) :
    (update_feed caps file feed).trace =
      traceOf
        (runEntries caps ((load_data file).map SightingRecord.link) feed) := by
  cases hrun : runEntries caps ((load_data file).map SightingRecord.link) feed with
  | raised tr => simp [update_feed, hrun, traceOf]
  | ok ns tr =>
    by_cases hemp : ns.isEmpty <;> simp [update_feed, hrun, hemp, traceOf]

/-! ## The claims -/

/-- Claim C1 counterexample: the claim is false on the code.
`existing_links` is computed once before the loop (line 84) and never
extended inside it, so one feed pull holding two entries with the same
link (here `entA` and `entB`, both resolving) stores two records with the
same `id`: after the run the persisted store holds exactly two records
whose `id` is the hash of that link. -/
theorem claim1_counterexample :
    entA.link = entB.link ∧
    (load_data (update_feed capsOkay none [entA, entB]).file).countP
        (fun r => r.id == capsOkay.md5hex entA.link) = 2 := by
  constructor
  · rfl
  · decide

/-- Claim C1 amended: a link already persisted in the Store is never
re-added (every accumulated record has a link absent from the loaded
store), and when the Store links are duplicate-free and one feed pull
contains no two entries with the same link, the persisted store stays
duplicate-free by link (hence by `id`) after the run — and therefore
across any number of such runs.  The within-run part of the original
claim fails: the identity index is not updated during a run. -/
theorem claim1_dedup_amended (caps : Caps) (file : Option (List SightingRecord))
    (feed : List FeedEntry)
    (h1 : ((load_data file).map SightingRecord.link).Nodup)
    (h2 : (feed.map FeedEntry.link).Nodup) :
    (∀ r ∈ (update_feed caps file feed).new_entries,
        r.link ∉ (load_data file).map SightingRecord.link) ∧
    ((load_data (update_feed caps file feed).file).map
        SightingRecord.link).Nodup := by
  cases hrun : runEntries caps ((load_data file).map SightingRecord.link) feed with
  | raised tr =>
    constructor
    · intro r hr
      simp [update_feed, hrun] at hr
    · have hfile : (update_feed caps file feed).file = file := by
        simp [update_feed, hrun]
      rw [hfile]
      exact h1
  | ok ns tr =>
    have hne : (update_feed caps file feed).new_entries = ns := by
      by_cases hemp : ns.isEmpty <;> simp [update_feed, hrun, hemp]
    constructor
    · intro r hr
      rw [hne] at hr
      exact (runEntries_ok_spec caps _ feed ns tr hrun r hr).1
    · by_cases hemp : ns.isEmpty
      · have hfile : (update_feed caps file feed).file = file := by
          simp [update_feed, hrun, hemp]
        rw [hfile]
        exact h1
      · have hfile : (update_feed caps file feed).file =
            some (save_data (load_data file ++ ns)) := by
          simp [update_feed, hrun, hemp]
        rw [hfile]
        simp only [load_data, Option.getD_some]
        have hperm := (List.perm_insertionSort dateGe
          (load_data file ++ ns)).map SightingRecord.link
        refine hperm.nodup_iff.mpr ?_
        rw [List.map_append]
        refine List.Nodup.append h1
          (runEntries_ok_nodup caps _ feed ns tr hrun h2) ?_
        intro a ha hamem
        rcases List.mem_map.mp hamem with ⟨r2, hr2, hlink⟩
        have hnl := (runEntries_ok_spec caps _ feed ns tr hrun r2 hr2).1
        rw [hlink] at hnl
        exact hnl ha

theorem claim1_dedup_amended_witness :
    (((load_data (some [recX])).map SightingRecord.link).Nodup ∧
     (([entA] : List FeedEntry).map FeedEntry.link).Nodup) ∧
    ((∀ r ∈ (update_feed capsOkay (some [recX]) [entA]).new_entries,
        r.link ∉ (load_data (some [recX])).map SightingRecord.link) ∧
     ((load_data (update_feed capsOkay (some [recX]) [entA]).file).map
         SightingRecord.link).Nodup) :=
  ⟨⟨by decide, by decide⟩,
   claim1_dedup_amended capsOkay (some [recX]) [entA] (by decide) (by decide)⟩

/-- Claim C2: `save_data` always returns the record set re-sorted so that
the `date` strings are non-increasing (the Python sort descending by the
`date` key), for every input order; and at run level the persisted file is
either untouched or holds such a sorted sequence. -/
theorem claim2_save_sorted :
    (∀ data : List SightingRecord,
        (save_data data).Pairwise (fun a b => strLe b.date a.date = true)) ∧
    (∀ caps file feed, (update_feed caps file feed).file = file ∨
        ∀ l ∈ (update_feed caps file feed).file,
          l.Pairwise (fun a b => strLe b.date a.date = true)) := by
  have hsort : ∀ data : List SightingRecord,
      (save_data data).Pairwise (fun a b => strLe b.date a.date = true) := by
    intro data
    haveI : IsTotal SightingRecord dateGe := ⟨dateGe_total⟩
    haveI : IsTrans SightingRecord dateGe := ⟨dateGe_trans⟩
    exact List.sorted_insertionSort dateGe data
  refine ⟨hsort, ?_⟩
  intro caps file feed
  cases hrun : runEntries caps ((load_data file).map SightingRecord.link) feed with
  | raised tr =>
    left
    simp [update_feed, hrun]
  | ok ns tr =>
    by_cases hemp : ns.isEmpty
    · left
      simp [update_feed, hrun, hemp]
    · right
      intro l hl
      have hfile : (update_feed caps file feed).file =
          some (save_data (load_data file ++ ns)) := by
        simp [update_feed, hrun, hemp]
      rw [hfile, Option.mem_def] at hl
      injection hl with hl
      rw [← hl]
      exact hsort _

/-- Claim C3: every record created by the pipeline carries coordinates
(the `new_item` dict is only built when geocoding returned a value), and
if every record of the loaded store has coordinates then so does every
record of the persisted store after the run — candidates whose extraction
or geocoding yields nothing are dropped, never stored partially. -/
theorem claim3_coords_present (caps : Caps) (file : Option (List SightingRecord))
    (feed : List FeedEntry)
    (h : ∀ r ∈ load_data file, r.lat.isSome = true ∧ r.lng.isSome = true) :
    (∀ r ∈ (update_feed caps file feed).new_entries,
        r.lat.isSome = true ∧ r.lng.isSome = true) ∧
    (∀ r ∈ load_data (update_feed caps file feed).file,
        r.lat.isSome = true ∧ r.lng.isSome = true) := by
  cases hrun : runEntries caps ((load_data file).map SightingRecord.link) feed with
  | raised tr =>
    constructor
    · intro r hr
      simp [update_feed, hrun] at hr
    · have hfile : (update_feed caps file feed).file = file := by
        simp [update_feed, hrun]
      rw [hfile]
      exact h
  | ok ns tr =>
    have hns : ∀ r ∈ ns, r.lat.isSome = true ∧ r.lng.isSome = true := by
      intro r hr
      have hspec := runEntries_ok_spec caps _ feed ns tr hrun r hr
      exact ⟨hspec.2.2.1, hspec.2.2.2.1⟩
    constructor
    · intro r hr
      have hne : (update_feed caps file feed).new_entries = ns := by
        by_cases hemp : ns.isEmpty <;> simp [update_feed, hrun, hemp]
      rw [hne] at hr
      exact hns r hr
    · by_cases hemp : ns.isEmpty
      · have hfile : (update_feed caps file feed).file = file := by
          simp [update_feed, hrun, hemp]
        rw [hfile]
        exact h
      · have hfile : (update_feed caps file feed).file =
            some (save_data (load_data file ++ ns)) := by
          simp [update_feed, hrun, hemp]
        rw [hfile]
        intro r hr
        simp only [load_data, Option.getD_some] at hr
        have hperm := List.perm_insertionSort dateGe (load_data file ++ ns)
        have hr2 : r ∈ load_data file ++ ns := hperm.mem_iff.mp hr
        rcases List.mem_append.mp hr2 with hr3 | hr3
        · exact h r hr3
        · exact hns r hr3

theorem claim3_coords_present_witness :
    (∀ r ∈ load_data (some [recX]),
        r.lat.isSome = true ∧ r.lng.isSome = true) ∧
    ((∀ r ∈ (update_feed capsOkay (some [recX]) [entA]).new_entries,
        r.lat.isSome = true ∧ r.lng.isSome = true) ∧
     (∀ r ∈ load_data (update_feed capsOkay (some [recX]) [entA]).file,
        r.lat.isSome = true ∧ r.lng.isSome = true)) :=
  ⟨by decide, claim3_coords_present capsOkay (some [recX]) [entA] (by decide)⟩

/-- Claim C4: a run that accumulates no new record performs no write at
all — the file state after the run is exactly the input file state (even
an absent file stays absent, and no re-sorting rewrite happens). -/
theorem claim4_noop_no_write (caps : Caps) (file : Option (List SightingRecord))
    (feed : List FeedEntry)
    (h : (update_feed caps file feed).new_entries = []) :
    (update_feed caps file feed).file = file ∧
    (update_feed caps file feed).wrote = false := by
  cases hrun : runEntries caps ((load_data file).map SightingRecord.link) feed with
  | raised tr => constructor <;> simp [update_feed, hrun]
  | ok ns tr =>
    by_cases hemp : ns.isEmpty
    · constructor <;> simp [update_feed, hrun, hemp]
    · exfalso
      have hne : (update_feed caps file feed).new_entries = ns := by
        simp [update_feed, hrun, hemp]
      rw [hne] at h
      rw [h] at hemp
      exact hemp rfl

theorem claim4_noop_no_write_witness :
    (update_feed capsOkay (some [recX]) []).new_entries = [] ∧
    ((update_feed capsOkay (some [recX]) []).file = some [recX] ∧
     (update_feed capsOkay (some [recX]) []).wrote = false) :=
  ⟨rfl, claim4_noop_no_write capsOkay (some [recX]) [] rfl⟩

/-- Claim C5: with the capabilities fixed functions of their inputs, a
second run of `update_feed` over the same feed, starting from the file the
first (non-raising) run left behind, accumulates zero new records, leaves
the file unchanged and does not raise: every link added by the first run
is in the identity index, and every other entry reproduces the same skip. -/
theorem claim5_second_run_empty (caps : Caps) (file : Option (List SightingRecord))
    (feed : List FeedEntry)
    (h : (update_feed caps file feed).raised = false) :
    (update_feed caps (update_feed caps file feed).file feed).new_entries = [] ∧
    (update_feed caps (update_feed caps file feed).file feed).file =
      (update_feed caps file feed).file ∧
    (update_feed caps (update_feed caps file feed).file feed).raised = false := by
  cases hrun : runEntries caps ((load_data file).map SightingRecord.link) feed with
  | raised tr =>
    exfalso
    simp [update_feed, hrun] at h
  | ok ns tr =>
    by_cases hemp : ns.isEmpty
    · have hfile : (update_feed caps file feed).file = file := by
        simp [update_feed, hrun, hemp]
      rw [hfile]
      have hne : ns = [] := by simpa using hemp
      refine ⟨?_, hfile, ?_⟩
      · simp [update_feed, hrun, hemp, hne]
      · simp [update_feed, hrun, hemp]
    · have hfile : (update_feed caps file feed).file =
          some (save_data (load_data file ++ ns)) := by
        simp [update_feed, hrun, hemp]
      have hperm := (List.perm_insertionSort dateGe
        (load_data file ++ ns)).map SightingRecord.link
      have hsub : ∀ x, x ∈ (load_data file).map SightingRecord.link →
          x ∈ (save_data (load_data file ++ ns)).map SightingRecord.link := by
        intro x hx
        refine hperm.mem_iff.mpr ?_
        rw [List.map_append]
        exact List.mem_append_left _ hx
      have hns2 : ∀ r ∈ ns,
          r.link ∈ (save_data (load_data file ++ ns)).map SightingRecord.link := by
        intro r hr
        refine hperm.mem_iff.mpr ?_
        rw [List.map_append]
        exact List.mem_append_right _ (List.mem_map_of_mem _ hr)
      obtain ⟨tr2, hrec2⟩ := runEntries_rerun caps _ _ hsub feed ns tr hrun hns2
      rw [hfile]
      simp only [load_data] at hrec2
      refine ⟨?_, ?_, ?_⟩ <;> simp [update_feed, load_data, hrec2]

theorem claim5_second_run_empty_witness :
    (update_feed capsOkay none [entA]).raised = false ∧
    ((update_feed capsOkay (update_feed capsOkay none [entA]).file
        [entA]).new_entries = [] ∧
     (update_feed capsOkay (update_feed capsOkay none [entA]).file
        [entA]).file = (update_feed capsOkay none [entA]).file ∧
     (update_feed capsOkay (update_feed capsOkay none [entA]).file
        [entA]).raised = false) :=
  ⟨by decide, claim5_second_run_empty capsOkay none [entA] (by decide)⟩

/-- Claim C6: a raised exception in the extraction capability, and a
raised exception (timeout or transient error) in the geocoding capability,
are each observationally identical to a clean resolution miss on the same
input: the whole run — resulting file, write flag, raise flag, accumulated
records and event trace — is unchanged when the error is replaced by a
miss, so the candidate is dropped and the run continues with the next
entry exactly as it would on a miss. -/
theorem claim6_capability_error_is_miss
    (file : Option (List SightingRecord)) (feed : List FeedEntry)
    (cA cA' cB cB' : Caps) (t0 a0 : String) :
    (cA'.geminiKey = cA.geminiKey → cA'.md5hex = cA.md5hex →
     cA'.geocode = cA.geocode → cA.gemini t0 = .error →
     cA'.gemini = (fun t => if t = t0 then .ok "None" else cA.gemini t) →
     update_feed cA' file feed = update_feed cA file feed) ∧
    (cB'.geminiKey = cB.geminiKey → cB'.md5hex = cB.md5hex →
     cB'.gemini = cB.gemini → cB.geocode a0 = .error →
     cB'.geocode = (fun a => if a = a0 then .notFound else cB.geocode a) →
     update_feed cB' file feed = update_feed cB file feed) := by
  constructor
  · intro hkey hmd hgeo hgem hgem'
    apply update_feed_congr
    intro e
    apply processEntryCore_congr
    · intro t
      rw [hkey, hgem']
      by_cases ht : t = t0
      · subst ht
        rw [ask_gemini_of_none_resp _ _ t (by simp),
            ask_gemini_of_error _ _ t hgem]
      · exact ask_gemini_congr _ _ _ t (by simp [ht])
    · intro a
      rw [hgeo]
    · exact hmd
  · intro hkey hmd hgem hgeo hgeo'
    apply update_feed_congr
    intro e
    apply processEntryCore_congr
    · intro t
      rw [hkey, hgem]
    · intro a
      rw [hgeo']
      by_cases ha : a ++ ", Japan" = a0
      · have h1 : get_coordinates_from_address
            (fun q => if q = a0 then GeoResult.notFound else cB.geocode q) a =
              none := by
          simp [get_coordinates_from_address, ha]
        have h2 : get_coordinates_from_address cB.geocode a = none := by
          simp [get_coordinates_from_address, ha, hgeo]
        rw [h1, h2]
      · exact get_coordinates_congr _ _ a (by simp [ha])
    · exact hmd

theorem claim6_capability_error_is_miss_witness :
    update_feed capsGemMiss none [entA] = update_feed capsGemErr none [entA] ∧
    update_feed capsGeoMiss none [entA] = update_feed capsGeoErr none [entA] :=
  ⟨(claim6_capability_error_is_miss none [entA] capsGemErr capsGemMiss
      capsGeoErr capsGeoMiss "熊 A" "熊 A, Japan").1 rfl rfl rfl rfl rfl,
   (claim6_capability_error_is_miss none [entA] capsGemErr capsGemMiss
      capsGeoErr capsGeoMiss "熊 A" "熊 A, Japan").2 rfl rfl rfl rfl rfl⟩

/-- Claim C7: when the text-understanding capability answers the literal
"None" sentinel for a candidate title, resolution yields nothing for that
entry, whatever the geocoding capability would answer: the extractor
returns no place, the loop body skips the entry, its event block holds the
extraction call only — no geocoding call — and no record is produced. -/
theorem claim7_none_sentinel (caps : Caps) (L : List String) (e : FeedEntry)
    (p : PTime) (_hkey : caps.geminiKey.isSome = true)
    (hresp : caps.gemini e.title = .ok "None")
    (hmem : e.link ∉ L) (hpub : e.published = some p)
    (hkw : hasKeyword e.title = true) :
    ask_gemini_for_location caps.geminiKey caps.gemini e.title = none ∧
    processEntry caps L e = (.skip, [.extractCall e.title]) := by
  have hag := ask_gemini_of_none_resp caps.geminiKey caps.gemini e.title hresp
  refine ⟨hag, ?_⟩
  rw [processEntry_of_not_mem caps L e hmem]
  simp [processEntryCore, hpub, hkw, hag]

theorem claim7_none_sentinel_witness :
    (capsNone.geminiKey.isSome = true ∧
     capsNone.gemini entA.title = .ok "None" ∧
     entA.link ∉ ([] : List String) ∧ entA.published = some pt1 ∧
     hasKeyword entA.title = true) ∧
    (ask_gemini_for_location capsNone.geminiKey capsNone.gemini entA.title =
       none ∧
     processEntry capsNone [] entA = (.skip, [.extractCall entA.title])) :=
  ⟨⟨rfl, rfl, by decide, rfl, by decide⟩,
   claim7_none_sentinel capsNone [] entA pt1 rfl rfl (by decide) rfl
     (by decide)⟩

/-- Claim C8: an entry whose title holds neither "熊" nor "クマ" is never
passed to the resolver: its loop-body step emits no capability event at
all (no extraction call, no geocoding call) and adds no record; and at run
level, every extraction call in the trace of a run is on a title holding
one of the keywords. -/
theorem claim8_keyword_gate (caps : Caps) (L : List String) (e : FeedEntry)
    (file : Option (List SightingRecord)) (feed : List FeedEntry)
    (hkw : hasKeyword e.title = false) :
    (processEntry caps L e).2 = [] ∧
    (∀ r, (processEntry caps L e).1 ≠ .add r) ∧
    (∀ t, Event.extractCall t ∈ (update_feed caps file feed).trace →
        hasKeyword t = true) := by
  have hstep : (processEntry caps L e).2 = [] ∧
      ∀ r, (processEntry caps L e).1 ≠ .add r := by
    by_cases hmem : e.link ∈ L
    · rw [processEntry_of_mem caps L e hmem]
      exact ⟨rfl, fun r h => StepResult.noConfusion h⟩
    · rw [processEntry_of_not_mem caps L e hmem]
      rcases processEntryCore_cases caps e with
        ⟨_, hc⟩ | ⟨p, _, _, hc⟩ | ⟨p, _, hk, _, hc⟩ |
        ⟨p, loc, _, hk, _, _, hc⟩ | ⟨p, loc, c, _, hk, _, _, hc⟩ <;> rw [hc]
      · exact ⟨rfl, fun r h => StepResult.noConfusion h⟩
      · exact ⟨rfl, fun r h => StepResult.noConfusion h⟩
      · rw [hk] at hkw; exact Bool.noConfusion hkw
      · rw [hk] at hkw; exact Bool.noConfusion hkw
      · rw [hk] at hkw; exact Bool.noConfusion hkw
  refine ⟨hstep.1, hstep.2, ?_⟩
  intro t ht
  rw [update_feed_trace] at ht
  exact runEntries_extract_kw caps _ feed t ht

theorem claim8_keyword_gate_witness :
    hasKeyword entNoKw.title = false ∧
    ((processEntry capsOkay [] entNoKw).2 = [] ∧
     (∀ r, (processEntry capsOkay [] entNoKw).1 ≠ .add r) ∧
     (∀ t, Event.extractCall t ∈ (update_feed capsOkay none [entNoKw]).trace →
         hasKeyword t = true)) :=
  ⟨by decide, claim8_keyword_gate capsOkay [] entNoKw none [entNoKw]
    (by decide)⟩

/-- Claim C9 counterexample: the claim is false on the code.  The
`time.sleep(1)` sits after the successful-add path only (line 136); a
geocoding call that returns no match reaches `continue` (line 118) before
any sleep, so the next geocoding call follows it with no pause.  In the
run below the trace contains two successive geocoding calls (the first a
no-match) with no sleep between them. -/
theorem claim9_counterexample :
    pausedBetweenGeocodes (update_feed capsMiss1 none feedMiss1).trace =
      false ∧
    (update_feed capsMiss1 none feedMiss1).trace =
      [.extractCall "熊1", .geocodeCall "熊1" false,
       .extractCall "熊2", .geocodeCall "熊2" true, .sleep] := by
  constructor
  · decide
  · decide

/-- Claim C9 amended: the fixed delay occurs after every geocoding call
that found coordinates (each such call is immediately followed by the
sleep, which therefore separates it from any later geocoding call); when
the earlier geocoding call returned no match or raised, the next geocoding
call may follow with no delay. -/
theorem claim9_delay_amended (caps : Caps) (file : Option (List SightingRecord))
    (feed : List FeedEntry) :
    sleepAfterSuccess (update_feed caps file feed).trace = true := by
  rw [update_feed_trace]
  exact runEntries_sas caps _ feed

/-- Claim C10: timestamp normalization (lines 95-96) runs before the
keyword filter (line 99), so a feed containing a fresh entry whose
`published_parsed` is absent makes `update_feed` raise and the run aborts
with nothing persisted, even though the title of that entry contains no
topic keyword and would otherwise have been dropped. -/
theorem claim10_timestamp_before_filter (caps : Caps) :
    hasKeyword entNoDate.title = false ∧
    entNoDate.published = none ∧
    (update_feed caps none [entNoDate]).raised = true ∧
    (update_feed caps none [entNoDate]).file = none ∧
    (update_feed caps none [entNoDate]).wrote = false :=
  ⟨by decide, rfl, rfl, rfl, rfl⟩
